import Mathlib

/-!
Shallow embedding of `shellshape/test-utils` (files
`src/streams/repeatreader.rs` and `src/streams/voidwriter.rs`) and proofs
of the specification's claims about it.

Bytes are modelled as `Nat`.  A fallible source operation returns
`Except E α` together with the source state after the call (Rust mutates
the source through `&mut self` whether or not the call succeeds).  The
reader's read loop can spin forever on an empty source, so it is embedded
with explicit fuel: a `none` result means the loop did not finish within
the given fuel.
-/

set_option linter.unusedVariables false

deriving instance DecidableEq for Except

/-- Record of one interaction with the wrapped source during a read call:
either a `read` request of `req` bytes that returned `.ok got` bytes (or an
error), or a `seek` to the absolute start. -/
inductive Ev (E : Type) where
  | readE (req : Nat) (res : Except E Nat)
  | seekE (res : Except E Unit)
deriving DecidableEq, Repr

/-- Number of seek events in a trace. -/
def countSeek : List (Ev E) → Nat
  | [] => 0
  | .seekE _ :: t => countSeek t + 1
  | .readE _ _ :: t => countSeek t

/-- `RepeatReader<S>` from `repeatreader.rs`: fields `size`, `contents`
and `read` (bytes already emitted). -/
structure RepeatReader (σ : Type) where
  size : Nat
  contents : σ
  read : Nat
deriving DecidableEq, Repr

/-- `RepeatReader::new(size, contents)`. -/
def RepeatReader.new (size : Nat) (contents : σ) : RepeatReader σ :=
  { size := size, contents := contents, read := 0 }

/-- `RepeatReader::left`: `self.size - self.read` (usize subtraction,
well-defined under the invariant `read <= size`). -/
def RepeatReader.left (r : RepeatReader σ) : Nat :=
  r.size - r.read

/-- `RepeatReader::reset`: seek the contents to absolute position 0
(propagating a seek failure with `?`, which leaves `read` untouched),
then set `read := 0`. -/
def RepeatReader.reset (seekFn : σ → Except E Unit × σ) (r : RepeatReader σ) :
    Except E Unit × RepeatReader σ :=
  match seekFn r.contents with
  | (.error e, s1) => (.error e, { r with contents := s1 })
  | (.ok _, s1) => (.ok (), { r with contents := s1, read := 0 })

/-- Writing `chunk` into the byte buffer `buf` starting at offset `off`
(the Rust source reads into the sub-slice `buf[off..]`). -/
def spliceAt (buf : List Nat) (off : Nat) (chunk : List Nat) : List Nat :=
  buf.take off ++ chunk ++ buf.drop (off + chunk.length)

/-- Result of the `while read < ln` loop of `RepeatReader::read`:
outcome, destination buffer contents, bytes collected so far, source
state, and the trace of source interactions. -/
structure LoopOut (σ E : Type) where
  res : Except E Unit
  buf : List Nat
  col : Nat
  src : σ
  tr : List (Ev E)
deriving DecidableEq, Repr

/-- The `while read < ln` loop of `RepeatReader::read`: while fewer than
`ln` bytes are collected, seek the source to 0 and read into
`buf[col..ln]`; any source error propagates at once (the `?` operator).
`fuel` bounds the number of iterations; `none` means it was exhausted. -/
def readLoop (readFn : σ → Nat → Except E (List Nat) × σ)
    (seekFn : σ → Except E Unit × σ) :
    Nat → σ → List Nat → Nat → Nat → Option (LoopOut σ E)
  | 0, s, buf, col, ln =>
    if col < ln then none else some ⟨.ok (), buf, col, s, []⟩
  | fuel' + 1, s, buf, col, ln =>
    if col < ln then
        match seekFn s with
        | (.error e, s1) => some ⟨.error e, buf, col, s1, [.seekE (.error e)]⟩
        | (.ok _, s1) =>
          match readFn s1 (ln - col) with
          | (.error e, s2) =>
            some ⟨.error e, buf, col, s2,
              [.seekE (.ok ()), .readE (ln - col) (.error e)]⟩
          | (.ok chunk, s2) =>
            match readLoop readFn seekFn fuel' s2 (spliceAt buf col chunk)
                (col + chunk.length) ln with
            | none => none
            | some out =>
              some { out with
                tr := .seekE (.ok ()) :: .readE (ln - col) (.ok chunk.length) :: out.tr }
    else
      some ⟨.ok (), buf, col, s, []⟩

/-- Result of one `RepeatReader::read` call: the `io::Result<usize>`,
the destination buffer contents after the call, the reader after the call,
and the trace of source interactions. -/
structure ReadOut (σ E : Type) where
  res : Except E Nat
  buf : List Nat
  reader : RepeatReader σ
  tr : List (Ev E)
deriving DecidableEq, Repr

/-- `RepeatReader::read` from `repeatreader.rs`:
`ln = min(buf.len(), self.left())`; first `self.contents.read(&mut buf[..ln])?`;
then the wrap-around loop; on success `self.read += ln` and `Ok(ln)` is
returned.  On an error the `?` operator returns it unchanged and `self.read`
is not updated. -/
def rrRead (readFn : σ → Nat → Except E (List Nat) × σ)
    (seekFn : σ → Except E Unit × σ)
    (fuel : Nat) (r : RepeatReader σ) (buf : List Nat) : Option (ReadOut σ E) :=
  let ln := min buf.length r.left
  match readFn r.contents ln with
  | (.error e, s1) =>
    some ⟨.error e, buf, { r with contents := s1 }, [.readE ln (.error e)]⟩
  | (.ok chunk, s1) =>
    match readLoop readFn seekFn fuel s1 (spliceAt buf 0 chunk) chunk.length ln with
    | none => none
    | some out =>
      match out.res with
      | .error e =>
        some ⟨.error e, out.buf, { r with contents := out.src },
          .readE ln (.ok chunk.length) :: out.tr⟩
      | .ok _ =>
        some ⟨.ok ln, out.buf,
          { r with contents := out.src, read := r.read + ln },
          .readE ln (.ok chunk.length) :: out.tr⟩

/-- `std::io::Cursor` over an in-memory byte buffer (`RepeatReader::from_slice`
wraps the contents in `Cursor::new`, position 0). -/
structure Cursor where
  data : List Nat
  pos : Nat
deriving DecidableEq, Repr

/-- `Cursor`'s `Read::read`: copy `min(req, data.len() - pos)` bytes from
`data[pos..]` and advance the position; never fails. -/
def Cursor.readFn (c : Cursor) (req : Nat) : Except Empty (List Nat) × Cursor :=
  let chunk := (c.data.drop c.pos).take req
  (.ok chunk, ⟨c.data, c.pos + chunk.length⟩)

/-- `Cursor`'s `Seek::seek(SeekFrom::Start(0))`: set the position to 0;
never fails. -/
def Cursor.seekFn (c : Cursor) : Except Empty Unit × Cursor :=
  (.ok (), ⟨c.data, 0⟩)

/-- `RepeatReader::from_slice(size, slice)`: a reader over a fresh cursor. -/
def RepeatReader.fromSlice (size : Nat) (d : List Nat) : RepeatReader Cursor :=
  RepeatReader.new size ⟨d, 0⟩

/-- A read call on a cursor-backed reader. -/
def rrReadC (fuel : Nat) (r : RepeatReader Cursor) (buf : List Nat) :
    Option (ReadOut Cursor Empty) :=
  rrRead Cursor.readFn Cursor.seekFn fuel r buf

/-- Test-harness driver: repeatedly read with a scratch buffer of length
`L` until the reader is exhausted, concatenating the bytes obtained
(`read_to_string` in the repository's tests).  `fuel` bounds the number
of read calls. -/
def readToEnd : Nat → RepeatReader Cursor → Nat → Option (List Nat × RepeatReader Cursor)
  | 0, r, _ => if r.left = 0 then some ([], r) else none
  | fuel + 1, r, L =>
    if r.left = 0 then
      some ([], r)
    else
      match rrReadC L r (List.replicate L 0) with
      | none => none
      | some out =>
        match out.res with
        | .error e => e.elim
        | .ok n =>
          match readToEnd fuel out.reader L with
          | none => none
          | some (rest, rf) => some (out.buf.take n ++ rest, rf)

/-- The cyclic byte stream of `d` starting at absolute position `p`:
`m` bytes `d[(p + i) % d.length]`. -/
def cycFrom (d : List Nat) (p m : Nat) : List Nat :=
  (List.range m).map fun i => d.getD ((p + i) % d.length) 0

/-- Expected trace of the wrap-around loop collecting `m` more bytes from
a source of length `len ≥ 1`: iteration `j` seeks, then requests the
`m - j * len` still missing bytes and obtains `min len (m - j * len)`. -/
def cycTrace (len m : Nat) : List (Ev Empty) :=
  (List.range ((m + len - 1) / len)).flatMap fun j =>
    [.seekE (.ok ()), .readE (m - j * len) (.ok (min len (m - j * len)))]

/-- `VoidWriter` from `voidwriter.rs`: counters `wrote` and `calls`. -/
structure VoidWriter where
  wrote : Nat
  calls : Nat
deriving DecidableEq, Repr

/-- `VoidWriter::new` (`Default`): both counters zero. -/
def VoidWriter.new : VoidWriter := ⟨0, 0⟩

/-- `VoidWriter::wrote` accessor. -/
def VoidWriter.wroteAcc (w : VoidWriter) : Nat := w.wrote

/-- `VoidWriter::calls` accessor. -/
def VoidWriter.callsAcc (w : VoidWriter) : Nat := w.calls

/-- `io::Write::write` for `VoidWriter`: adds `buf.len()` to `wrote`,
1 to `calls`, and returns `Ok(buf.len())`.  The error type is the
(unused) I/O error domain. -/
def VoidWriter.write (w : VoidWriter) (buf : List Nat) :
    Except Nat (Nat × VoidWriter) :=
  .ok (buf.length, ⟨w.wrote + buf.length, w.calls + 1⟩)

/-- `io::Write::flush` for `VoidWriter`: `Ok(())`. -/
def VoidWriter.flush (w : VoidWriter) : Except Nat Unit := .ok ()

/-- Driver: a sequence of write calls. -/
def VoidWriter.writeSeq (w : VoidWriter) (bufs : List (List Nat)) : VoidWriter :=
  bufs.foldl (fun w b =>
    match VoidWriter.write w b with
    | .ok (_, w1) => w1
    | .error _ => w) w

/-- `fmt::Display` for `VoidWriter`:
`writeln!(f, "Wrote {} bytes in {} calls", self.wrote, self.calls)` —
note that `writeln!` appends a newline. -/
def VoidWriter.display (w : VoidWriter) : String :=
  "Wrote " ++ toString w.wrote ++ " bytes in " ++ toString w.calls ++ " calls\n"

/-- A scripted fallible source, used to observe how the reader treats
source failures: each read or seek consumes the next scripted response. -/
inductive SResp where
  | rOk (chunk : List Nat)
  | rErr (code : Nat)
  | sOk
  | sErr (code : Nat)
deriving DecidableEq, Repr

/-- State of a scripted source: the remaining script. -/
structure ScriptSource where
  script : List SResp
deriving DecidableEq, Repr

/-- The error value was produced verbatim by one of the source's own
operations: the reader introduces no error of its own. -/
def errFromSource (readFn : σ → Nat → Except E (List Nat) × σ)
    (seekFn : σ → Except E Unit × σ) (e : E) : Prop :=
  (∃ s req, (readFn s req).1 = .error e) ∨ (∃ s, (seekFn s).1 = .error e)

/-- Read on a scripted source: consume the next response; on a script
mismatch report 0 bytes. -/
def ScriptSource.readFn (s : ScriptSource) (req : Nat) :
    Except Nat (List Nat) × ScriptSource :=
  match s.script with
  | .rOk chunk :: rest => (.ok (chunk.take req), ⟨rest⟩)
  | .rErr code :: rest => (.error code, ⟨rest⟩)
  | _ => (.ok [], s)

/-- Seek on a scripted source: consume the next response; on a script
mismatch succeed. -/
def ScriptSource.seekFn (s : ScriptSource) : Except Nat Unit × ScriptSource :=
  match s.script with
  | .sOk :: rest => (.ok (), ⟨rest⟩)
  | .sErr code :: rest => (.error code, ⟨rest⟩)
  | _ => (.ok (), s)

/-! ### Basic lemmas about buffer splicing and the cyclic stream -/

theorem spliceAt_nil (buf : List Nat) (off : Nat) : spliceAt buf off [] = buf := by
  simp [spliceAt]

theorem spliceAt_length (buf ch : List Nat) (off : Nat)
    (h : off + ch.length ≤ buf.length) :
    (spliceAt buf off ch).length = buf.length := by
  simp [spliceAt]
  omega

theorem spliceAt_zero (buf ch : List Nat) :
    spliceAt buf 0 ch = ch ++ buf.drop ch.length := by
  simp [spliceAt]

theorem spliceAt_spliceAt (buf c1 c2 : List Nat) (off : Nat) (h : off ≤ buf.length) :
    spliceAt (spliceAt buf off c1) (off + c1.length) c2 = spliceAt buf off (c1 ++ c2) := by
  have hx : (buf.take off ++ c1).length = off + c1.length := by
    simp
    omega
  unfold spliceAt
  rw [show buf.take off ++ c1 ++ buf.drop (off + c1.length)
      = (buf.take off ++ c1) ++ buf.drop (off + c1.length) by simp]
  rw [List.take_left' hx]
  rw [show off + c1.length + c2.length = (buf.take off ++ c1).length + c2.length by rw [hx]]
  rw [List.drop_append]
  rw [List.drop_drop]
  simp [Nat.add_comm, Nat.add_assoc, Nat.add_left_comm]

theorem length_cycFrom (d : List Nat) (p m : Nat) : (cycFrom d p m).length = m := by
  simp [cycFrom]

theorem cycFrom_zero (d : List Nat) (p : Nat) : cycFrom d p 0 = [] := rfl

theorem cycFrom_congr (d : List Nat) {p q : Nat} (m : Nat)
    (h : p % d.length = q % d.length) : cycFrom d p m = cycFrom d q m := by
  unfold cycFrom
  apply List.map_congr_left
  intro i _
  rw [Nat.add_mod, h, ← Nat.add_mod]

theorem cycFrom_split (d : List Nat) (p m : Nat) (hp : p ≤ d.length) :
    cycFrom d p m = (d.drop p).take m ++ cycFrom d 0 (m - (d.length - p)) := by
  apply List.ext_getElem
  · simp [cycFrom]
    omega
  · intro i h1 h2
    have him : i < m := by simpa [cycFrom] using h1
    rw [List.getElem_append]
    simp only [cycFrom, List.getElem_map, List.getElem_range]
    split
    case isTrue hlt =>
      have hi2 : i < d.length - p := by
        simp at hlt
        omega
      have hpi : p + i < d.length := by omega
      rw [List.getElem_take, List.getElem_drop]
      rw [Nat.mod_eq_of_lt hpi]
      simp [List.getD_eq_getElem?_getD, List.getElem?_eq_getElem hpi]
    case isFalse hge =>
      have hglen : min m (d.length - p) ≤ i := by
        simp at hge
        omega
      have hcase : d.length - p ≤ m := by
        by_contra hc
        have : min m (d.length - p) = m := by omega
        omega
      have hdp : d.length - p ≤ i := by omega
      simp only [cycFrom, List.getElem_map, List.getElem_range, List.length_take,
        List.length_drop]
      have harith : p + i = (i - (d.length - p)) + d.length := by omega
      rw [harith, Nat.add_mod_right]
      congr 2
      omega

theorem cycFrom_append (d : List Nat) (p a b : Nat) :
    cycFrom d p (a + b) = cycFrom d p a ++ cycFrom d (p + a) b := by
  unfold cycFrom
  rw [List.range_add, List.map_append, List.map_map]
  congr 1
  apply List.map_congr_left
  intro i _
  simp [Function.comp]
  have hadd : p + (a + i) = p + a + i := by omega
  rw [hadd]

theorem take_flatten_replicate (d : List Nat) (k m : Nat) (h : m ≤ k * d.length) :
    ((List.replicate k d).flatten).take m = cycFrom d 0 m := by
  induction k generalizing m with
  | zero =>
    have hm : m = 0 := by simpa using h
    subst hm
    simp [cycFrom]
  | succ k ih =>
    rw [List.replicate_succ, List.flatten_cons, List.take_append_eq_append_take]
    have hrec : m - d.length ≤ k * d.length := by
      have hs : (k + 1) * d.length = k * d.length + d.length := by ring
      rw [hs] at h
      omega
    rw [ih (m - d.length) hrec]
    rw [cycFrom_split d 0 m (Nat.zero_le _)]
    simp

/-! ### Lemmas about the expected wrap-around trace -/

theorem cycTrace_zero (len : Nat) : cycTrace len 0 = [] := by
  unfold cycTrace
  have h : (0 + len - 1) / len = 0 := by
    rcases Nat.eq_zero_or_pos len with h0 | h0
    · simp [h0]
    · exact Nat.div_eq_of_lt (by omega)
  rw [h]
  simp

theorem cycTrace_succ (len m : Nat) (hlen : 0 < len) (hm : 0 < m) :
    cycTrace len m =
      .seekE (.ok ()) :: .readE m (.ok (min len m)) :: cycTrace len (m - len) := by
  unfold cycTrace
  have hk : (m + len - 1) / len = (m - len + len - 1) / len + 1 := by
    rcases le_or_lt len m with hc | hc
    · have h1 : m + len - 1 = (m - len + len - 1) + len := by omega
      rw [h1, Nat.add_div_right _ hlen]
    · have h1 : (m + len - 1) / len = 1 := by
        apply Nat.div_eq_of_lt_le
        · omega
        · omega
      have h2 : (m - len + len - 1) / len = 0 := Nat.div_eq_of_lt (by omega)
      omega
  rw [hk, List.range_succ_eq_map, List.flatMap_cons, List.flatMap_map]
  simp only [Nat.zero_mul, Nat.sub_zero, List.cons_append, List.nil_append]
  congr 1
  congr 1
  rw [List.flatMap_def, List.flatMap_def]
  congr 1
  apply List.map_congr_left
  intro j _
  have h3 : m - Nat.succ j * len = m - len - j * len := by
    rw [Nat.succ_mul]
    omega
  simp [h3]

theorem countSeek_append (a b : List (Ev E)) :
    countSeek (a ++ b) = countSeek a + countSeek b := by
  induction a with
  | nil => simp [countSeek]
  | cons x t ih =>
    cases x <;> simp [countSeek, ih] <;> omega

theorem countSeek_flatMap_range (k : Nat) (f : Nat → List (Ev E))
    (hf : ∀ j, countSeek (f j) = 1) :
    countSeek ((List.range k).flatMap f) = k := by
  induction k with
  | zero => simp [countSeek]
  | succ k ih =>
    rw [List.range_succ, List.flatMap_append, countSeek_append, ih]
    simp [hf, countSeek]

theorem countSeek_cycTrace (len m : Nat) :
    countSeek (cycTrace len m) = (m + len - 1) / len := by
  unfold cycTrace
  apply countSeek_flatMap_range
  intro j
  simp [countSeek]

theorem readLoop_done (readFn : σ → Nat → Except E (List Nat) × σ)
    (seekFn : σ → Except E Unit × σ) (fuel : Nat) (s : σ) (buf : List Nat)
    (col ln : Nat) (h : ¬ col < ln) :
    readLoop readFn seekFn fuel s buf col ln = some ⟨.ok (), buf, col, s, []⟩ := by
  cases fuel <;> simp [readLoop, h]

theorem readLoop_cursor (d : List Nat) (hd : d ≠ []) :
    ∀ (fuel col ln p : Nat) (buf : List Nat),
      col < ln → ln - col ≤ fuel → ln ≤ buf.length →
      readLoop Cursor.readFn Cursor.seekFn fuel ⟨d, p⟩ buf col ln =
        some ⟨.ok (), spliceAt buf col (cycFrom d 0 (ln - col)), ln,
          ⟨d, (ln - col - 1) % d.length + 1⟩, cycTrace d.length (ln - col)⟩ := by
  intro fuel
  induction fuel with
  | zero =>
    intro col ln p buf h1 h2 h3
    omega
  | succ fuel ih =>
    intro col ln p buf hcol hfuel hbuf
    have hlen : 0 < d.length := List.length_pos.mpr hd
    have hm : 0 < ln - col := by omega
    simp only [readLoop, if_pos hcol, Cursor.seekFn, Cursor.readFn, List.drop_zero]
    rcases le_or_lt (ln - col) d.length with hcase | hcase
    · have hg : (List.take (ln - col) d).length = ln - col := by
        simp
        omega
      rw [hg]
      rw [readLoop_done _ _ _ _ _ _ _ (by omega)]
      have hcyc : cycFrom d 0 (ln - col) = List.take (ln - col) d := by
        rw [cycFrom_split d 0 (ln - col) (Nat.zero_le _)]
        simp [Nat.sub_eq_zero_of_le hcase, cycFrom_zero]
      have e1 : col + (ln - col) = ln := by omega
      have e2 : (ln - col - 1) % d.length + 1 = 0 + (ln - col) := by
        rw [Nat.mod_eq_of_lt (by omega)]
        omega
      have e3 : cycTrace d.length (ln - col) =
          [Ev.seekE (E := Empty) (.ok ()), .readE (ln - col) (.ok (ln - col))] := by
        rw [cycTrace_succ d.length (ln - col) hlen hm, Nat.min_eq_right hcase,
          Nat.sub_eq_zero_of_le hcase, cycTrace_zero]
      rw [hcyc, e1, e2, e3]
    · have htk : List.take (ln - col) d = d := List.take_of_length_le (by omega)
      rw [htk]
      have hbuf2 : (spliceAt buf col d).length = buf.length :=
        spliceAt_length buf d col (by omega)
      rw [ih (col + d.length) ln (0 + d.length) (spliceAt buf col d) (by omega) (by omega)
        (by rw [hbuf2]; omega)]
      have e4 : ln - (col + d.length) = ln - col - d.length := by omega
      rw [e4]
      rw [spliceAt_spliceAt buf d (cycFrom d 0 (ln - col - d.length)) col (by omega)]
      have hsplit : cycFrom d 0 (ln - col) = d ++ cycFrom d 0 (ln - col - d.length) := by
        rw [cycFrom_split d 0 (ln - col) (Nat.zero_le _)]
        simp only [List.drop_zero, Nat.sub_zero]
        rw [List.take_of_length_le (by omega)]
      rw [hsplit]
      have e5 : (ln - col - d.length - 1) % d.length = (ln - col - 1) % d.length := by
        have h6 : d.length <= ln - col - 1 := by omega
        rw [Nat.mod_eq_sub_mod h6]
        congr 1
        omega
      rw [e5]
      have e6 : cycTrace d.length (ln - col) =
          Ev.seekE (E := Empty) (.ok ()) ::
            .readE (ln - col) (.ok d.length) :: cycTrace d.length (ln - col - d.length) := by
        rw [cycTrace_succ d.length (ln - col) hlen hm, Nat.min_eq_left (by omega)]
      rw [e6]

theorem spliceAt_spliceAt' (buf c1 c2 : List Nat) (off off2 : Nat)
    (h : off ≤ buf.length) (h2 : off2 = off + c1.length) :
    spliceAt (spliceAt buf off c1) off2 c2 = spliceAt buf off (c1 ++ c2) := by
  rw [h2]
  exact spliceAt_spliceAt buf c1 c2 off h

theorem rrRead_cursor (d : List Nat) (hd : d ≠ []) (size rd p fuel : Nat)
    (buf : List Nat) (ln g0 : Nat)
    (hln : ln = min buf.length (size - rd)) (hg0 : g0 = min ln (d.length - p))
    (hfuel : ln ≤ fuel) :
    rrReadC fuel ⟨size, ⟨d, p⟩, rd⟩ buf =
      some ⟨.ok ln,
        spliceAt buf 0 ((d.drop p).take ln ++ cycFrom d 0 (ln - g0)),
        ⟨size, ⟨d, if g0 = ln then p + g0 else (ln - g0 - 1) % d.length + 1⟩, rd + ln⟩,
        .readE ln (.ok g0) :: cycTrace d.length (ln - g0)⟩ := by
  have hlen : 0 < d.length := List.length_pos.mpr hd
  have hglen : ((d.drop p).take ln).length = min ln (d.length - p) := by
    simp
  simp only [rrReadC, rrRead, RepeatReader.left, Cursor.readFn]
  simp only [← hln]
  rcases le_or_lt ln (d.length - p) with hcase | hcase
  · -- first read collects everything: g0 = ln
    have hge : g0 = ln := by omega
    rw [hglen, Nat.min_eq_left hcase]
    rw [readLoop_done _ _ _ _ _ _ _ (by omega)]
    rw [hge, if_pos rfl]
    have hz : ln - ln = 0 := by omega
    rw [hz, cycFrom_zero, cycTrace_zero, List.append_nil]
  · -- short first read: wrap-around loop runs
    have hge : g0 = d.length - p := by omega
    rw [hglen, Nat.min_eq_right (by omega)]
    rw [readLoop_cursor d hd fuel (d.length - p) ln (p + (d.length - p))
      (spliceAt buf 0 ((d.drop p).take ln)) (by omega) (by omega)
      (by rw [spliceAt_length buf _ 0 (by simp; omega)]; omega)]
    rw [spliceAt_spliceAt' buf ((d.drop p).take ln) (cycFrom d 0 (ln - (d.length - p)))
      0 (d.length - p) (by omega) (by rw [hglen, Nat.min_eq_right (by omega)]; omega)]
    rw [hge, if_neg (by omega)]

theorem readLoop_mono (readFn : σ → Nat → Except E (List Nat) × σ)
    (seekFn : σ → Except E Unit × σ) :
    ∀ (fuel fuel2 : Nat) (s : σ) (buf : List Nat) (col ln : Nat) (out : LoopOut σ E),
      readLoop readFn seekFn fuel s buf col ln = some out → fuel ≤ fuel2 →
      readLoop readFn seekFn fuel2 s buf col ln = some out := by
  intro fuel
  induction fuel with
  | zero =>
    intro fuel2 s buf col ln out h hle
    by_cases hc : col < ln
    · simp [readLoop, hc] at h
    · rw [readLoop_done _ _ _ _ _ _ _ hc] at h
      rw [readLoop_done _ _ _ _ _ _ _ hc]
      exact h
  | succ fuel ih =>
    intro fuel2 s buf col ln out h hle
    by_cases hc : col < ln
    · obtain ⟨f2, rfl⟩ : ∃ f2, fuel2 = f2 + 1 := ⟨fuel2 - 1, by omega⟩
      rcases hseek : seekFn s with ⟨sres, s1⟩
      cases sres with
      | error e =>
        simp only [readLoop, if_pos hc, hseek] at h ⊢
        exact h
      | ok u =>
        rcases hread : readFn s1 (ln - col) with ⟨rres, s2⟩
        cases rres with
        | error e =>
          simp only [readLoop, if_pos hc, hseek, hread] at h ⊢
          exact h
        | ok chunk =>
          simp only [readLoop, if_pos hc, hseek, hread] at h ⊢
          cases hrec : readLoop readFn seekFn fuel s2 (spliceAt buf col chunk)
              (col + chunk.length) ln with
          | none => rw [hrec] at h; simp at h
          | some out1 =>
            rw [hrec] at h
            rw [ih f2 _ _ _ _ _ hrec (by omega)]
            exact h
    · rw [readLoop_done _ _ _ _ _ _ _ hc] at h
      rw [readLoop_done _ _ _ _ _ _ _ hc]
      exact h

theorem rrRead_mono (readFn : σ → Nat → Except E (List Nat) × σ)
    (seekFn : σ → Except E Unit × σ) (fuel fuel2 : Nat) (r : RepeatReader σ)
    (buf : List Nat) (out : ReadOut σ E)
    (h : rrRead readFn seekFn fuel r buf = some out) (hle : fuel ≤ fuel2) :
    rrRead readFn seekFn fuel2 r buf = some out := by
  simp only [rrRead] at h ⊢
  rcases hrf : readFn r.contents (min buf.length r.left) with ⟨rres, s1⟩
  cases rres with
  | error e =>
    simp only [hrf] at h ⊢
    exact h
  | ok chunk =>
    simp only [hrf] at h ⊢
    cases hrec : readLoop readFn seekFn fuel s1 (spliceAt buf 0 chunk) chunk.length
        (min buf.length r.left) with
    | none => rw [hrec] at h; simp at h
    | some out1 =>
      rw [hrec] at h
      rw [readLoop_mono readFn seekFn fuel fuel2 _ _ _ _ _ hrec hle]
      exact h

theorem readLoop_empty : ∀ (fuel p col ln : Nat) (buf : List Nat), col < ln →
    readLoop Cursor.readFn Cursor.seekFn fuel ⟨[], p⟩ buf col ln = none := by
  intro fuel
  induction fuel with
  | zero =>
    intro p col ln buf hc
    simp [readLoop, hc]
  | succ fuel ih =>
    intro p col ln buf hc
    simp only [readLoop, if_pos hc, Cursor.seekFn, Cursor.readFn]
    simp only [List.drop_nil, List.take_nil, List.length_nil, Nat.add_zero, spliceAt_nil]
    rw [ih 0 col ln buf hc]

theorem rrRead_empty (size rd p fuel : Nat) (buf : List Nat)
    (h : 0 < min buf.length (size - rd)) :
    rrReadC fuel ⟨size, ⟨[], p⟩, rd⟩ buf = none := by
  simp only [rrReadC, rrRead, RepeatReader.left, Cursor.readFn]
  simp only [List.drop_nil, List.take_nil, List.length_nil, Nat.add_zero, spliceAt_nil]
  rw [readLoop_empty fuel p 0 (min buf.length (size - rd)) buf h]


theorem rrRead_ok_generic (readFn : σ → Nat → Except E (List Nat) × σ)
    (seekFn : σ → Except E Unit × σ) (fuel : Nat) (r : RepeatReader σ)
    (buf : List Nat) (out : ReadOut σ E) (n : Nat)
    (h : rrRead readFn seekFn fuel r buf = some out) (hres : out.res = .ok n) :
    n = min buf.length r.left ∧ out.reader.read = r.read + n ∧
      out.reader.size = r.size := by
  simp only [rrRead] at h
  rcases hrf : readFn r.contents (min buf.length r.left) with ⟨rres, s1⟩
  cases rres with
  | error e =>
    simp only [hrf] at h
    simp only [Option.some.injEq] at h
    subst h
    simp at hres
  | ok chunk =>
    simp only [hrf] at h
    cases hrec : readLoop readFn seekFn fuel s1 (spliceAt buf 0 chunk) chunk.length
        (min buf.length r.left) with
    | none => rw [hrec] at h; simp at h
    | some out1 =>
      rw [hrec] at h
      simp only [] at h
      cases hres1 : out1.res with
      | error e =>
        rw [hres1] at h
        simp only [Option.some.injEq] at h
        subst h
        simp at hres
      | ok u =>
        rw [hres1] at h
        simp only [Option.some.injEq] at h
        subst h
        simp only at hres
        have hn : n = min buf.length r.left := by
          have := hres.symm
          injection this
        exact ⟨hn, by simp [hn], rfl⟩

theorem readLoop_error_generic (readFn : σ → Nat → Except E (List Nat) × σ)
    (seekFn : σ → Except E Unit × σ) :
    ∀ (fuel : Nat) (s : σ) (buf : List Nat) (col ln : Nat) (out : LoopOut σ E) (e : E),
      readLoop readFn seekFn fuel s buf col ln = some out → out.res = .error e →
      errFromSource readFn seekFn e := by
  intro fuel
  induction fuel with
  | zero =>
    intro s buf col ln out e h hres
    by_cases hc : col < ln
    · simp [readLoop, hc] at h
    · rw [readLoop_done _ _ _ _ _ _ _ hc] at h
      simp only [Option.some.injEq] at h
      subst h
      simp at hres
  | succ fuel ih =>
    intro s buf col ln out e h hres
    by_cases hc : col < ln
    · rcases hseek : seekFn s with ⟨sres, s1⟩
      cases sres with
      | error e2 =>
        simp only [readLoop, if_pos hc, hseek] at h
        simp only [Option.some.injEq] at h
        subst h
        simp only [Except.error.injEq] at hres
        subst hres
        exact Or.inr ⟨s, by rw [hseek]⟩
      | ok u =>
        rcases hread : readFn s1 (ln - col) with ⟨rres, s2⟩
        cases rres with
        | error e2 =>
          simp only [readLoop, if_pos hc, hseek, hread] at h
          simp only [Option.some.injEq] at h
          subst h
          simp only [Except.error.injEq] at hres
          subst hres
          exact Or.inl ⟨s1, ln - col, by rw [hread]⟩
        | ok chunk =>
          simp only [readLoop, if_pos hc, hseek, hread] at h
          cases hrec : readLoop readFn seekFn fuel s2 (spliceAt buf col chunk)
              (col + chunk.length) ln with
          | none => rw [hrec] at h; simp at h
          | some out1 =>
            rw [hrec] at h
            simp only [Option.some.injEq] at h
            subst h
            exact ih s2 _ _ _ out1 e hrec hres
    · rw [readLoop_done _ _ _ _ _ _ _ hc] at h
      simp only [Option.some.injEq] at h
      subst h
      simp at hres

theorem rrRead_error_generic (readFn : σ → Nat → Except E (List Nat) × σ)
    (seekFn : σ → Except E Unit × σ) (fuel : Nat) (r : RepeatReader σ)
    (buf : List Nat) (out : ReadOut σ E) (e : E)
    (h : rrRead readFn seekFn fuel r buf = some out) (hres : out.res = .error e) :
    out.reader.read = r.read ∧ out.reader.size = r.size ∧
      errFromSource readFn seekFn e := by
  simp only [rrRead] at h
  rcases hrf : readFn r.contents (min buf.length r.left) with ⟨rres, s1⟩
  cases rres with
  | error e2 =>
    simp only [hrf] at h
    simp only [Option.some.injEq] at h
    subst h
    simp only [Except.error.injEq] at hres
    subst hres
    exact ⟨rfl, rfl, Or.inl ⟨r.contents, min buf.length r.left, by rw [hrf]⟩⟩
  | ok chunk =>
    simp only [hrf] at h
    cases hrec : readLoop readFn seekFn fuel s1 (spliceAt buf 0 chunk) chunk.length
        (min buf.length r.left) with
    | none => rw [hrec] at h; simp at h
    | some out1 =>
      rw [hrec] at h
      simp only [] at h
      cases hres1 : out1.res with
      | error e2 =>
        rw [hres1] at h
        simp only [Option.some.injEq] at h
        subst h
        simp only [Except.error.injEq] at hres
        subst hres
        exact ⟨rfl, rfl, readLoop_error_generic readFn seekFn fuel s1 _ _ _ out1 e2 hrec hres1⟩
      | ok u =>
        rw [hres1] at h
        simp only [Option.some.injEq] at h
        subst h
        simp at hres

theorem reset_error_generic (seekFn : σ → Except E Unit × σ) (r : RepeatReader σ)
    (e : E) (h : (RepeatReader.reset seekFn r).1 = .error e) :
    (RepeatReader.reset seekFn r).2.read = r.read ∧
      ∃ s, (seekFn s).1 = .error e := by
  rcases hseek : seekFn r.contents with ⟨sres, s1⟩
  cases sres with
  | error e2 =>
    have hr : RepeatReader.reset seekFn r = (.error e2, { r with contents := s1 }) := by
      unfold RepeatReader.reset
      rw [hseek]
    rw [hr] at h ⊢
    simp only [Except.error.injEq] at h
    subst h
    exact ⟨rfl, r.contents, by rw [hseek]⟩
  | ok u =>
    have hr : RepeatReader.reset seekFn r = (.ok (), { r with contents := s1, read := 0 }) := by
      unfold RepeatReader.reset
      rw [hseek]
    rw [hr] at h
    simp at h

theorem readLoop_cursor_data : ∀ (fuel : Nat) (c : Cursor) (buf : List Nat)
    (col ln : Nat) (out : LoopOut Cursor Empty),
    readLoop Cursor.readFn Cursor.seekFn fuel c buf col ln = some out →
    out.src.data = c.data := by
  intro fuel
  induction fuel with
  | zero =>
    intro c buf col ln out h
    by_cases hc : col < ln
    · simp [readLoop, hc] at h
    · rw [readLoop_done _ _ _ _ _ _ _ hc] at h
      simp only [Option.some.injEq] at h
      subst h
      rfl
  | succ fuel ih =>
    intro c buf col ln out h
    by_cases hc : col < ln
    · simp only [readLoop, if_pos hc, Cursor.seekFn, Cursor.readFn] at h
      split at h
      · simp at h
      · rename_i out1 heq
        simp only [Option.some.injEq] at h
        subst h
        have h5 := ih _ _ _ _ out1 heq
        simpa using h5
    · rw [readLoop_done _ _ _ _ _ _ _ hc] at h
      simp only [Option.some.injEq] at h
      subst h
      rfl

theorem rrReadC_pres (fuel : Nat) (r : RepeatReader Cursor) (buf : List Nat)
    (out : ReadOut Cursor Empty) (h : rrReadC fuel r buf = some out) :
    out.reader.size = r.size ∧ out.reader.contents.data = r.contents.data := by
  simp only [rrReadC, rrRead, Cursor.readFn] at h
  split at h
  · simp at h
  · rename_i out1 heq
    have hdata := readLoop_cursor_data fuel _ _ _ _ out1 heq
    split at h
    · rename_i e heq2
      exact e.elim
    · simp only [Option.some.injEq] at h
      subst h
      refine ⟨rfl, ?_⟩
      simpa using hdata

theorem readToEnd_pres : ∀ (fuel : Nat) (r : RepeatReader Cursor) (L : Nat)
    (out : List Nat) (rf : RepeatReader Cursor),
    readToEnd fuel r L = some (out, rf) →
    rf.size = r.size ∧ rf.contents.data = r.contents.data := by
  intro fuel
  induction fuel with
  | zero =>
    intro r L out rf h
    simp only [readToEnd] at h
    by_cases hl : r.left = 0
    · rw [if_pos hl] at h
      simp only [Option.some.injEq, Prod.mk.injEq] at h
      obtain ⟨-, rfl⟩ := h
      exact ⟨rfl, rfl⟩
    · rw [if_neg hl] at h
      simp at h
  | succ fuel ih =>
    intro r L out rf h
    simp only [readToEnd] at h
    by_cases hl : r.left = 0
    · rw [if_pos hl] at h
      simp only [Option.some.injEq, Prod.mk.injEq] at h
      obtain ⟨-, rfl⟩ := h
      exact ⟨rfl, rfl⟩
    · rw [if_neg hl] at h
      split at h
      · simp at h
      · rename_i o heq
        split at h
        · rename_i e heq2
          exact e.elim
        · rename_i n heq2
          split at h
          · simp at h
          · rename_i rest rf2 heq3
            simp only [Option.some.injEq, Prod.mk.injEq] at h
            obtain ⟨-, rfl⟩ := h
            have h1 := ih o.reader L rest rf2 heq3
            have h2 := rrReadC_pres L r _ o heq
            exact ⟨by rw [h1.1, h2.1], by rw [h1.2, h2.2]⟩

theorem readToEnd_spec (d : List Nat) (hd : d ≠ []) :
    ∀ (fuel size rd p L : Nat),
      rd ≤ size → p ≤ d.length → p % d.length = rd % d.length → 1 ≤ L →
      size - rd ≤ fuel →
      ∃ pf, readToEnd fuel ⟨size, ⟨d, p⟩, rd⟩ L =
        some (cycFrom d rd (size - rd), ⟨size, ⟨d, pf⟩, size⟩) := by
  have hlen : 0 < d.length := List.length_pos.mpr hd
  intro fuel
  induction fuel with
  | zero =>
    intro size rd p L h1 h2 h3 h4 h5
    have hsz : rd = size := by omega
    subst hsz
    refine ⟨p, ?_⟩
    simp [readToEnd, RepeatReader.left, cycFrom_zero]
  | succ fuel ih =>
    intro size rd p L h1 h2 h3 h4 h5
    by_cases hl : size - rd = 0
    · have hsz : rd = size := by omega
      subst hsz
      refine ⟨p, ?_⟩
      simp [readToEnd, RepeatReader.left, cycFrom_zero]
    · set n := min L (size - rd) with hn
      set g0 := min n (d.length - p) with hg
      have hn1 : 1 ≤ n := by omega
      have hgle : g0 ≤ d.length - p := by omega
      have hrr := rrRead_cursor d hd size rd p L (List.replicate L 0) n g0
        (by simp [hn]) rfl (by omega)
      have hp2le : (if g0 = n then p + g0 else (n - g0 - 1) % d.length + 1) ≤ d.length := by
        split
    
    
        · omega
        · have h9 := Nat.mod_lt (n - g0 - 1) hlen
          omega
      have hp2mod : (if g0 = n then p + g0 else (n - g0 - 1) % d.length + 1) % d.length
          = (rd + n) % d.length := by
        have hpn : (p + n) % d.length = (rd + n) % d.length := by
          conv_lhs => rw [Nat.add_mod]
          rw [h3, ← Nat.add_mod]
      
        split
        · rename_i hcg
          rw [hcg, hpn]
        · rename_i hcg
          have hg2 : g0 = d.length - p := by omega
          have hlt : d.length - p < n := by omega
          rw [Nat.mod_add_mod]
          have h10 : n - g0 - 1 + 1 = n - g0 := by omega
          rw [h10]
          have h11 : n - g0 = p + n - d.length := by omega
          rw [h11]
          rw [← Nat.mod_eq_sub_mod (by omega)]
          exact hpn
      obtain ⟨pf, hrec⟩ := ih size (rd + n)
        (if g0 = n then p + g0 else (n - g0 - 1) % d.length + 1) L
        (by omega) hp2le hp2mod h4 (by omega)
      refine ⟨pf, ?_⟩
      simp only [readToEnd]
      rw [if_neg (by simp [RepeatReader.left]; omega)]
      rw [hrr]
      simp only []
      rw [hrec]
      simp only []
      have hSlen : ((d.drop p).take n ++ cycFrom d 0 (n - g0)).length = n := by
        simp [length_cycFrom]
      have hbuf : (spliceAt (List.replicate L 0) 0
            ((d.drop p).take n ++ cycFrom d 0 (n - g0))).take n
          = (d.drop p).take n ++ cycFrom d 0 (n - g0) := by
        rw [spliceAt_zero]
        exact List.take_left' hSlen
      rw [hbuf]
      have hS : (d.drop p).take n ++ cycFrom d 0 (n - g0) = cycFrom d rd n := by
        have h7 : n - g0 = n - (d.length - p) := by omega
        rw [h7, ← cycFrom_split d p n h2]
        exact cycFrom_congr d n h3
      rw [hS]
      have hcat : cycFrom d rd n ++ cycFrom d (rd + n) (size - (rd + n))
          = cycFrom d rd (size - rd) := by
        rw [← cycFrom_append]
        congr 1
        omega
      rw [hcat]

theorem rrRead_cursor_zero (r : RepeatReader Cursor) (buf : List Nat) (fuel : Nat)
    (h : min buf.length r.left = 0) :
    rrReadC fuel r buf = some ⟨.ok 0, buf, r, [.readE 0 (.ok 0)]⟩ := by
  simp only [rrReadC, rrRead, Cursor.readFn, h]
  simp only [List.take_zero, List.length_nil, Nat.add_zero, spliceAt_nil]
  rw [readLoop_done _ _ _ _ _ _ _ (by omega)]

/-! ### The claims -/

/-- Claim C1: for a `RepeatReader` over a non-empty content buffer,
reading repeatedly until exhaustion yields exactly `total_size` bytes,
byte-for-byte equal to the content repeated
`ceil(total_size / content_length)` times and truncated to `total_size`
bytes (for `total_size < content_length` this is the first `total_size`
bytes of the content). -/
theorem claim_C1_cyclic_read_to_exhaustion (d : List Nat) (size L : Nat)
    (hd : d ≠ []) (hL : 1 ≤ L) :
    ∃ out rf, readToEnd size (RepeatReader.fromSlice size d) L = some (out, rf) ∧
      out.length = size ∧
      out = ((List.replicate ((size + d.length - 1) / d.length) d).flatten).take size := by
  have hlen : 0 < d.length := List.length_pos.mpr hd
  obtain ⟨pf, hrec⟩ := readToEnd_spec d hd size size 0 0 L (Nat.zero_le _)
    (Nat.zero_le _) rfl hL (by omega)
  refine ⟨cycFrom d 0 (size - 0), ⟨size, ⟨d, pf⟩, size⟩, hrec, ?_, ?_⟩
  · simp [length_cycFrom]
  · have hceil : size ≤ (size + d.length - 1) / d.length * d.length := by
      have h := Nat.div_add_mod (size + d.length - 1) d.length
      have h2 : (size + d.length - 1) % d.length < d.length := Nat.mod_lt _ hlen
      rw [Nat.mul_comm ((size + d.length - 1) / d.length) d.length]
      generalize hqt : d.length * ((size + d.length - 1) / d.length) = t at h ⊢
      omega
    rw [take_flatten_replicate d _ size hceil]
    simp

/-- Claim C2: during a read over non-empty content, the reader seeks the
source back to absolute position 0 and resumes reading into the remaining
part of the destination exactly when the source supplied fewer bytes than
still needed (its cursor reached its own end); this repeats as often as
necessary: the call succeeds with exactly `n = min(L, left)` bytes and
the interaction trace is one read of `n` returning
`g0 = min n (content_length - pos)` followed by
`ceil((n - g0)/content_length)` seek-and-read rounds. -/
theorem claim_C2_wrap_around (d : List Nat) (size rd p fuel : Nat) (buf : List Nat)
    (hd : d ≠ []) (hfuel : min buf.length (size - rd) ≤ fuel) :
    ∃ out, rrReadC fuel ⟨size, ⟨d, p⟩, rd⟩ buf = some out ∧
      out.res = .ok (min buf.length (size - rd)) ∧
      out.tr = .readE (min buf.length (size - rd))
          (.ok (min (min buf.length (size - rd)) (d.length - p))) ::
        cycTrace d.length (min buf.length (size - rd) -
          min (min buf.length (size - rd)) (d.length - p)) ∧
      countSeek out.tr = (min buf.length (size - rd) -
          min (min buf.length (size - rd)) (d.length - p) + d.length - 1) / d.length := by
  refine ⟨_, rrRead_cursor d hd size rd p fuel buf _ _ rfl rfl hfuel, rfl, rfl, ?_⟩
  simp only [countSeek]
  exact countSeek_cycTrace _ _

/-- Claim C3: `read = 0 ≤ size` after construction, `read + left = size`
under the invariant (so `left` never underflows), every successful read
returns exactly `min(L, left)` and advances `read` (shrinks `left`) by
exactly that amount while preserving `read ≤ size`, and reset preserves
the invariant too. -/
theorem claim_C3_invariant_left (σ E : Type) (readFn : σ → Nat → Except E (List Nat) × σ)
    (seekFn : σ → Except E Unit × σ) :
    (∀ (size : Nat) (s : σ), (RepeatReader.new size s).read = 0 ∧
      (RepeatReader.new size s).read ≤ (RepeatReader.new size s).size ∧
      (RepeatReader.new size s).left = size) ∧
    (∀ r : RepeatReader σ, r.read ≤ r.size → r.read + r.left = r.size) ∧
    (∀ (fuel : Nat) (r : RepeatReader σ) (buf : List Nat) (out : ReadOut σ E) (n : Nat),
      rrRead readFn seekFn fuel r buf = some out → out.res = .ok n →
      n = min buf.length r.left ∧ out.reader.read = r.read + n ∧
        out.reader.size = r.size ∧ out.reader.left = r.left - n ∧
        (r.read ≤ r.size → out.reader.read ≤ out.reader.size)) ∧
    (∀ r : RepeatReader σ, r.read ≤ r.size →
      (RepeatReader.reset seekFn r).2.read ≤ (RepeatReader.reset seekFn r).2.size) := by
  refine ⟨?_, ?_, ?_, ?_⟩
  · intro size s
    exact ⟨rfl, by simp [RepeatReader.new], by simp [RepeatReader.new, RepeatReader.left]⟩
  · intro r h
    simp only [RepeatReader.left]
    omega
  · intro fuel r buf out n h hres
    obtain ⟨h1, h2, h3⟩ := rrRead_ok_generic readFn seekFn fuel r buf out n h hres
    refine ⟨h1, h2, h3, ?_, ?_⟩
    · simp only [RepeatReader.left, h2, h3]
      omega
    · intro h4
      rw [h2, h3]
      simp only [RepeatReader.left] at h1
      omega
  · intro r h
    rcases hseek : seekFn r.contents with ⟨sres, s1⟩
    cases sres with
    | error e =>
      have hr : RepeatReader.reset seekFn r = (.error e, { r with contents := s1 }) := by
        unfold RepeatReader.reset
        rw [hseek]
      rw [hr]
      exact h
    | ok u =>
      have hr : RepeatReader.reset seekFn r
          = (.ok (), { r with contents := s1, read := 0 }) := by
        unfold RepeatReader.reset
        rw [hseek]
      rw [hr]
      simp

/-- Claim C4: a source read or seek failure during `read` is propagated
unchanged (the error value is exactly one produced by the source, the
reader adds none of its own) and leaves `bytes_emitted` and `size` at
their pre-call values; a failing seek in `reset` likewise propagates
verbatim and leaves `bytes_emitted` unchanged. -/
theorem claim_C4_error_passthrough (σ E : Type)
    (readFn : σ → Nat → Except E (List Nat) × σ) (seekFn : σ → Except E Unit × σ) :
    (∀ (fuel : Nat) (r : RepeatReader σ) (buf : List Nat) (out : ReadOut σ E) (e : E),
      rrRead readFn seekFn fuel r buf = some out → out.res = .error e →
      out.reader.read = r.read ∧ out.reader.size = r.size ∧
        errFromSource readFn seekFn e) ∧
    (∀ (r : RepeatReader σ) (e : E), (RepeatReader.reset seekFn r).1 = .error e →
      (RepeatReader.reset seekFn r).2.read = r.read ∧ ∃ s, (seekFn s).1 = .error e) :=
  ⟨fun fuel r buf out e h hres => rrRead_error_generic readFn seekFn fuel r buf out e h hres,
   fun r e h => reset_error_generic seekFn r e h⟩

/-- Claim C5 counterexample: when `n = min(L, left) = 0` the code still
calls the source's read once with an empty buffer — the trace of source
interactions is non-empty, and with a source whose read fails even for a
zero-length request the call returns that failure instead of succeeding.
This contradicts the claim that the operation completes "without
interacting with the source". -/
theorem claim_C5_counterexample :
    (∃ out, rrReadC 3 ⟨3, ⟨[1, 2], 0⟩, 3⟩ [9, 9] = some out ∧
      out.res = .ok 0 ∧ out.tr ≠ []) ∧
    (∃ out, rrRead ScriptSource.readFn ScriptSource.seekFn 3
        (RepeatReader.new 0 ⟨[SResp.rErr 7]⟩) [0, 0, 0] = some out ∧
      out.res = .error 7) :=
  ⟨⟨_, rfl, rfl, by decide⟩, ⟨_, rfl, rfl⟩⟩

/-- Claim C5 as amended: when `n = min(L, left()) = 0` the operation
issues exactly one zero-length read to the source and completes; for the
repository's cursor-backed readers this zero-length read is a no-op, so
the call succeeds, reports zero bytes transferred, and leaves the reader,
the source position and the destination buffer unchanged. -/
theorem claim_C5_amended (r : RepeatReader Cursor) (buf : List Nat) (fuel : Nat)
    (h : min buf.length r.left = 0) :
    rrReadC fuel r buf = some ⟨.ok 0, buf, r, [.readE 0 (.ok 0)]⟩ :=
  rrRead_cursor_zero r buf fuel h

/-- Claim C6: a read call over a source holding at least one byte always
terminates (any fuel of at least `min(L, left)` loop iterations suffices
and the call succeeds), while over an empty source with
`min(L, left) > 0` the loop never terminates — no fuel bound makes it
return, and no error is reported either. -/
theorem claim_C6_termination :
    (∀ (d : List Nat) (size rd p fuel : Nat) (buf : List Nat), d ≠ [] →
      min buf.length (size - rd) ≤ fuel →
      ∃ out, rrReadC fuel ⟨size, ⟨d, p⟩, rd⟩ buf = some out ∧
        out.res = .ok (min buf.length (size - rd))) ∧
    (∀ (size rd p fuel : Nat) (buf : List Nat), 0 < min buf.length (size - rd) →
      rrReadC fuel ⟨size, ⟨[], p⟩, rd⟩ buf = none) := by
  constructor
  · intro d size rd p fuel buf hd hfuel
    exact ⟨_, rrRead_cursor d hd size rd p fuel buf _ _ rfl rfl hfuel, rfl⟩
  · intro size rd p fuel buf h
    exact rrRead_empty size rd p fuel buf h

/-- Claim C7: `reset` on a cursor-backed reader always succeeds, seeks
the source to position 0 and zeroes `bytes_emitted`, leaving exactly a
freshly constructed reader (so `left` is restored to `total_size`);
consequently resetting and reading to exhaustion a second time reproduces
the first run's byte sequence and final state. -/
theorem claim_C7_reset_fresh (r : RepeatReader Cursor) :
    RepeatReader.reset Cursor.seekFn r =
      (.ok (), RepeatReader.fromSlice r.size r.contents.data) ∧
    ((RepeatReader.reset Cursor.seekFn r).2).left = r.size ∧
    (∀ (fuel L : Nat) (out1 : List Nat) (rf : RepeatReader Cursor),
      readToEnd fuel (RepeatReader.reset Cursor.seekFn r).2 L = some (out1, rf) →
      readToEnd fuel (RepeatReader.reset Cursor.seekFn rf).2 L = some (out1, rf)) := by
  have hres : RepeatReader.reset Cursor.seekFn r =
      (.ok (), RepeatReader.fromSlice r.size r.contents.data) := rfl
  refine ⟨hres, ?_, ?_⟩
  · rw [hres]
    simp [RepeatReader.fromSlice, RepeatReader.new, RepeatReader.left]
  · intro fuel L out1 rf h
    have h2 : readToEnd fuel (RepeatReader.fromSlice r.size r.contents.data) L
        = some (out1, rf) := h
    have hp := readToEnd_pres fuel _ L out1 rf h2
    have hs : rf.size = r.size := hp.1
    have hdta : rf.contents.data = r.contents.data := hp.2
    show readToEnd fuel (RepeatReader.fromSlice rf.size rf.contents.data) L
        = some (out1, rf)
    rw [hs, hdta]
    exact h2

/-- Claim C8: every `VoidWriter` write succeeds, returns the buffer
length, adds it to `wrote` and 1 to `calls`; the counters are monotone
over any sequence of writes, and writing buffers of lengths 0, 10, 100
from a fresh writer gives `wrote = 110` and `calls = 3`. -/
theorem claim_C8_voidwriter_counts :
    (∀ (w : VoidWriter) (buf : List Nat),
      VoidWriter.write w buf = .ok (buf.length, ⟨w.wrote + buf.length, w.calls + 1⟩)) ∧
    (∀ (w : VoidWriter) (bufs : List (List Nat)),
      w.wrote ≤ (VoidWriter.writeSeq w bufs).wrote ∧
      w.calls ≤ (VoidWriter.writeSeq w bufs).calls) ∧
    (VoidWriter.writeSeq VoidWriter.new
        [[], List.replicate 10 0, List.replicate 100 0]).wrote = 110 ∧
    (VoidWriter.writeSeq VoidWriter.new
        [[], List.replicate 10 0, List.replicate 100 0]).calls = 3 := by
  refine ⟨fun w buf => rfl, ?_, rfl, rfl⟩
  intro w bufs
  induction bufs generalizing w with
  | nil => exact ⟨Nat.le_refl _, Nat.le_refl _⟩
  | cons b t ih =>
    have hstep : VoidWriter.writeSeq w (b :: t) =
        VoidWriter.writeSeq ⟨w.wrote + b.length, w.calls + 1⟩ t := rfl
    rw [hstep]
    have hi := ih ⟨w.wrote + b.length, w.calls + 1⟩
    exact ⟨Nat.le_trans (Nat.le_add_right _ _) hi.1,
      Nat.le_trans (Nat.le_succ _) hi.2⟩

/-- Claim C9 counterexample: the `Display` implementation uses
`writeln!`, which appends a newline, so the rendering of a writer with
110 bytes in 3 calls is `"Wrote 110 bytes in 3 calls\n"` — not exactly
the claimed string `"Wrote 110 bytes in 3 calls"` and nothing else. -/
theorem claim_C9_counterexample :
    VoidWriter.display ⟨110, 3⟩ ≠ "Wrote 110 bytes in 3 calls" ∧
    VoidWriter.display ⟨110, 3⟩ = "Wrote 110 bytes in 3 calls\n" := by
  constructor
  · decide
  · rfl

/-- Claim C9 as amended: the textual rendering produces exactly
`"Wrote <bytes_written> bytes in <write_calls> calls"` followed by a
single newline, and nothing else. -/
theorem claim_C9_amended (w c : Nat) :
    VoidWriter.display ⟨w, c⟩ =
      ("Wrote " ++ toString w ++ " bytes in " ++ toString c ++ " calls") ++ "\n" ∧
    VoidWriter.display ⟨110, 3⟩ = "Wrote 110 bytes in 3 calls" ++ "\n" := by
  constructor
  · simp [VoidWriter.display, String.append_assoc]
  · rfl

/-- Claim C10: a read call that returns `Ok(n)` on a cursor-backed
reader writes only the first `n` bytes of the caller's buffer: the
buffer keeps its length and every byte from index `n` on is unchanged. -/
theorem claim_C10_buffer_frame (r : RepeatReader Cursor) (buf : List Nat)
    (fuel : Nat) (out : ReadOut Cursor Empty) (n : Nat)
    (hout : rrReadC fuel r buf = some out) (hres : out.res = .ok n) :
    out.buf.length = buf.length ∧ out.buf.drop n = buf.drop n := by
  rcases r with ⟨size, ⟨d, p⟩, rd⟩
  by_cases h0 : min buf.length (RepeatReader.left (⟨size, ⟨d, p⟩, rd⟩ : RepeatReader Cursor)) = 0
  · rw [rrRead_cursor_zero _ buf fuel h0] at hout
    simp only [Option.some.injEq] at hout
    subst hout
    exact ⟨rfl, rfl⟩
  · by_cases hd : d = []
    · subst hd
      rw [rrRead_empty size rd p fuel buf
        (by simp only [RepeatReader.left] at h0 ⊢; omega)] at hout
      simp at hout
    · have hmono := rrRead_mono Cursor.readFn Cursor.seekFn fuel
        (max fuel (min buf.length (size - rd))) ⟨size, ⟨d, p⟩, rd⟩ buf out hout
        (Nat.le_max_left _ _)
      have hcan := rrRead_cursor d hd size rd p (max fuel (min buf.length (size - rd)))
        buf _ _ rfl rfl (Nat.le_max_right _ _)
      simp only [rrReadC] at hcan
      rw [hcan] at hmono
      simp only [Option.some.injEq] at hmono
      subst hmono
      simp only [] at hres
      have hnl : min buf.length (size - rd) = n := by
        injection hres
      subst hnl
      have hSlen : ((d.drop p).take (min buf.length (size - rd)) ++
          cycFrom d 0 (min buf.length (size - rd) -
            min (min buf.length (size - rd)) (d.length - p))).length
          = min buf.length (size - rd) := by
        simp [length_cycFrom]
      constructor
      · rw [spliceAt_length buf _ 0 (by rw [hSlen]; omega)]
      · rw [spliceAt_zero, hSlen]
        exact List.drop_left' hSlen

/-! ### Witnesses -/

/-- Witness for C1: `"hello world"` with `total_size = 13` — the
repository's own doc example. -/
theorem claim_C1_witness :
    ∃ out rf, readToEnd 13 (RepeatReader.fromSlice 13
        [104, 101, 108, 108, 111, 32, 119, 111, 114, 108, 100]) 4 = some (out, rf) ∧
      out.length = 13 ∧
      out = ((List.replicate ((13 + ([104, 101, 108, 108, 111, 32, 119, 111, 114, 108,
          100] : List Nat).length - 1) /
          ([104, 101, 108, 108, 111, 32, 119, 111, 114, 108, 100] : List Nat).length)
          [104, 101, 108, 108, 111, 32, 119, 111, 114, 108, 100]).flatten).take 13 :=
  claim_C1_cyclic_read_to_exhaustion
    [104, 101, 108, 108, 111, 32, 119, 111, 114, 108, 100] 13 4 (by decide) (by decide)

/-- Witness for C2: a 1-byte source with `total_size = 1000` and a
5-byte destination wraps 4 times. -/
theorem claim_C2_witness :
    ∃ out, rrReadC 5 ⟨1000, ⟨[7], 0⟩, 0⟩ [0, 0, 0, 0, 0] = some out ∧
      out.res = .ok 5 ∧ countSeek out.tr = 4 := by
  obtain ⟨out, h1, h2, h3, h4⟩ :=
    claim_C2_wrap_around [7] 1000 0 0 5 [0, 0, 0, 0, 0] (by decide) (by decide)
  refine ⟨out, h1, ?_, ?_⟩
  · simpa using h2
  · rw [h4]
    decide

/-- Witness for C3: a concrete successful 2-byte read on a cursor-backed
reader of size 5 over `[1, 2, 3]`. -/
theorem claim_C3_witness :
    ∃ out : ReadOut Cursor Empty,
      rrReadC 2 (RepeatReader.fromSlice 5 [1, 2, 3]) [0, 0] = some out ∧
      out.reader.read = 0 + 2 ∧ out.reader.read ≤ out.reader.size := by
  have h := (claim_C3_invariant_left Cursor Empty Cursor.readFn Cursor.seekFn).2.2.1
    2 (RepeatReader.fromSlice 5 [1, 2, 3]) [0, 0]
    ⟨.ok 2, [1, 2], ⟨5, ⟨[1, 2, 3], 2⟩, 2⟩, [.readE 2 (.ok 2)]⟩ 2 rfl rfl
  exact ⟨_, rfl, h.2.1, h.2.2.2.2 (by decide)⟩

/-- Witness for C4: a scripted source whose first read fails with code
42 (read path), and one whose seek fails with code 9 (reset path). -/
theorem claim_C4_witness :
    ((⟨10, ⟨[]⟩, 0⟩ : RepeatReader ScriptSource).read =
        (RepeatReader.new 10 (⟨[SResp.rErr 42]⟩ : ScriptSource)).read ∧
      (⟨10, ⟨[]⟩, 0⟩ : RepeatReader ScriptSource).size =
        (RepeatReader.new 10 (⟨[SResp.rErr 42]⟩ : ScriptSource)).size ∧
      errFromSource ScriptSource.readFn ScriptSource.seekFn 42) ∧
    ((RepeatReader.reset ScriptSource.seekFn
        (⟨5, ⟨[SResp.sErr 9]⟩, 3⟩ : RepeatReader ScriptSource)).2.read = 3 ∧
      ∃ s, (ScriptSource.seekFn s).1 = .error 9) := by
  constructor
  · exact (claim_C4_error_passthrough ScriptSource Nat ScriptSource.readFn
      ScriptSource.seekFn).1 3 (RepeatReader.new 10 ⟨[SResp.rErr 42]⟩) [0, 0, 0]
      ⟨.error 42, [0, 0, 0], ⟨10, ⟨[]⟩, 0⟩, [.readE 3 (.error 42)]⟩ 42 rfl rfl
  · exact (claim_C4_error_passthrough ScriptSource Nat ScriptSource.readFn
      ScriptSource.seekFn).2 ⟨5, ⟨[SResp.sErr 9]⟩, 3⟩ 9 rfl

/-- Witness for C5 (amended): an exhausted cursor-backed reader. -/
theorem claim_C5_witness :
    rrReadC 7 ⟨3, ⟨[1, 2], 0⟩, 3⟩ [9, 9] =
      some ⟨.ok 0, [9, 9], ⟨3, ⟨[1, 2], 0⟩, 3⟩, [.readE 0 (.ok 0)]⟩ :=
  claim_C5_amended ⟨3, ⟨[1, 2], 0⟩, 3⟩ [9, 9] 7 (by decide)

/-- Witness for C6: a 1-byte source terminates (with wrap-arounds), an
empty source never does, for any fuel tried here. -/
theorem claim_C6_witness :
    (∃ out, rrReadC 3 ⟨4, ⟨[5], 0⟩, 0⟩ [0, 0, 0] = some out ∧
      out.res = .ok (min ([0, 0, 0] : List Nat).length (4 - 0))) ∧
    rrReadC 100 ⟨5, ⟨[], 0⟩, 0⟩ [0] = none :=
  ⟨claim_C6_termination.1 [5] 4 0 0 3 [0, 0, 0] (by decide) (by decide),
   claim_C6_termination.2 5 0 0 100 [0] (by decide)⟩

/-- Witness for C7: after a full reset-and-read-to-exhaustion round over
`[1, 2]` with `total_size = 5`, resetting the final state and reading to
exhaustion again reproduces the same bytes and final state. -/
theorem claim_C7_witness :
    readToEnd 5 (RepeatReader.reset Cursor.seekFn
        (⟨5, ⟨[1, 2], 1⟩, 5⟩ : RepeatReader Cursor)).2 2 =
      some ([1, 2, 1, 2, 1], ⟨5, ⟨[1, 2], 1⟩, 5⟩) :=
  (claim_C7_reset_fresh ⟨5, ⟨[1, 2], 7⟩, 3⟩).2.2 5 2 [1, 2, 1, 2, 1]
    ⟨5, ⟨[1, 2], 1⟩, 5⟩ rfl

/-- Witness for C10: the 2-byte read of the C3 witness leaves the buffer
length and the bytes past index 2 unchanged. -/
theorem claim_C10_witness :
    ∃ out : ReadOut Cursor Empty,
      rrReadC 2 (RepeatReader.fromSlice 5 [1, 2, 3]) [0, 0] = some out ∧
      out.buf.length = ([0, 0] : List Nat).length ∧
      out.buf.drop 2 = ([0, 0] : List Nat).drop 2 := by
  have h := claim_C10_buffer_frame (RepeatReader.fromSlice 5 [1, 2, 3]) [0, 0] 2
    ⟨.ok 2, [1, 2], ⟨5, ⟨[1, 2, 3], 2⟩, 2⟩, [.readE 2 (.ok 2)]⟩ 2 rfl rfl
  exact ⟨_, rfl, h.1, h.2⟩
